import Mathlib

/-!
Verification of the copaint collaborative-canvas core: a shallow embedding of
the raster reconstruction engine (redrawCanvas, drawShape, floodFill from
src/components/PaintCanvas.tsx) and the session / history engine
(addToHistory, undo, redo, handleLeave, kick_user, create_room, join_room,
disconnect from the socket server), together with theorems settling the
frozen specification claims.
-/

/-! ## Data model (src types.ts) -/

/-- One RGBA pixel of an ImageData buffer; channels are byte values. -/
structure Pixel where
  r : Nat
  g : Nat
  b : Nat
  a : Nat
  deriving DecidableEq

/-- A parsed color (the hex color string of the repository, resolved to RGB
channels; the string-to-RGB conversion is done by the DOM and is external). -/
structure RGB where
  r : Nat
  g : Nat
  b : Nat
  deriving DecidableEq

/-- A canvas point. Canvas coordinates are JS numbers; the claims only involve
exact arithmetic on them, embedded as rationals. -/
structure Pt where
  x : ℚ
  y : ℚ
  deriving DecidableEq

inductive StrokeTool where
  | brush
  | pencil
  | eraser
  deriving DecidableEq

/-- DrawStroke payload (types.ts). -/
structure DrawStroke where
  points : List Pt
  color : RGB
  width : ℚ
  tool : StrokeTool
  deriving DecidableEq

inductive ShapeType where
  | rect
  | circle
  | triangle
  deriving DecidableEq

/-- DrawShape payload (types.ts). -/
structure DrawShape where
  type : ShapeType
  startPoint : Pt
  endPoint : Pt
  color : RGB
  width : ℚ
  isFilled : Bool
  deriving DecidableEq

/-- FillAction payload (types.ts). -/
structure FillAction where
  point : Pt
  color : RGB
  deriving DecidableEq

/-- The payload variants of a durable action; the clear variant carries no
payload (data is null in the source). -/
inductive ActionData where
  | stroke (s : DrawStroke)
  | shape (s : DrawShape)
  | fill (f : FillAction)
  | clear
  deriving DecidableEq

/-- CanvasAction (types.ts): id, author, timestamp and tagged payload. -/
structure CanvasAction where
  id : String
  userId : String
  timestamp : Int
  data : ActionData
  deriving DecidableEq

/-- Whether an action is a Stroke action. -/
def ActionData.isStroke : ActionData → Bool
  | .stroke _ => true
  | _ => false

/-- A pixel buffer: the ImageData of the canvas, a flat row-major list of
pixels of length w * h. -/
structure Buffer where
  w : Nat
  h : Nat
  data : List Pixel
  deriving DecidableEq

/-- ctx.clearRect over the whole canvas: every pixel becomes transparent
black (0,0,0,0). -/
def blank (w h : Nat) : Buffer :=
  ⟨w, h, List.replicate (w * h) ⟨0, 0, 0, 0⟩⟩

/-- A buffer is well formed when its data has exactly w * h pixels, as
ImageData guarantees. -/
def Buffer.wf (b : Buffer) : Prop := b.data.length = b.w * b.h

/-! ## drawShape (PaintCanvas.tsx lines 94-116)

The source function emits canvas path commands; its shallow embedding returns
the emitted command symbolically.  The circle command stores the squared
radius (the source passes Math.sqrt(w*w+h*h); squaring is the exact rational
encoding of that nonnegative radius). -/

/-- The stroked path command emitted by drawShape. -/
inductive RenderCmd where
  | strokeRect (x y w h : ℚ)
  | strokeCircle (cx cy r2 : ℚ)
  | strokeTriangle (a1 a2 b1 b2 c1 c2 : ℚ)
  deriving DecidableEq

/-- drawShape: computes w = end.x - start.x, h = end.y - start.y and emits
strokeRect(start, w, h), arc(start, sqrt(w^2+h^2)), or the closed path
top-midpoint, bottom-left, bottom-right. The isFilled flag is never read. -/
def drawShape (d : DrawShape) : RenderCmd :=
  let w := d.endPoint.x - d.startPoint.x
  let h := d.endPoint.y - d.startPoint.y
  match d.type with
  | .rect => .strokeRect d.startPoint.x d.startPoint.y w h
  | .circle => .strokeCircle d.startPoint.x d.startPoint.y (w * w + h * h)
  | .triangle =>
      .strokeTriangle (d.startPoint.x + w / 2) d.startPoint.y
        d.startPoint.x (d.startPoint.y + h)
        (d.startPoint.x + w) (d.startPoint.y + h)

/-- Squared distance between two points. -/
def distSq (p q : Pt) : ℚ := (p.x - q.x) ^ 2 + (p.y - q.y) ^ 2

/-- Squared distance from point p to the segment from a to b (clamped
projection). -/
def distSqPtSeg (p a b : Pt) : ℚ :=
  let dx := b.x - a.x
  let dy := b.y - a.y
  let dd := dx * dx + dy * dy
  if dd = 0 then distSq p a
  else
    let t := ((p.x - a.x) * dx + (p.y - a.y) * dy) / dd
    let tc := max 0 (min 1 t)
    (p.x - (a.x + tc * dx)) ^ 2 + (p.y - (a.y + tc * dy)) ^ 2

/-- Modelled from the spec: a pixel lies on a round-capped stroked segment of
width lw when it is within lw/2 of the segment. -/
def segCovered (lw : ℚ) (a b p : Pt) : Bool :=
  decide (distSqPtSeg p a b ≤ (lw / 2) ^ 2)

/-- Modelled from the spec: a pixel at squared distance d2 from the center of
a stroked circle of squared radius r2 and line width lw lies on the outline
when the absolute difference of distance and radius is at most lw/2,
expressed purely with squares so it stays rational. -/
def ringCovered (d2 r2 lw : ℚ) : Bool :=
  let s := d2 + r2 - (lw / 2) ^ 2
  decide (s ≤ 0) || decide (s ^ 2 ≤ 4 * d2 * r2)

/-- Modelled from the spec: the set of pixels covered by a stroked path
command (the canvas 2D rasterizer is external to the repository; per the spec
all shapes are stroked outlines painted with opaque replacement). -/
def cmdCovers (cmd : RenderCmd) (lw : ℚ) (p : Pt) : Bool :=
  match cmd with
  | .strokeRect x y w h =>
      segCovered lw ⟨x, y⟩ ⟨x + w, y⟩ p ||
      segCovered lw ⟨x + w, y⟩ ⟨x + w, y + h⟩ p ||
      segCovered lw ⟨x + w, y + h⟩ ⟨x, y + h⟩ p ||
      segCovered lw ⟨x, y + h⟩ ⟨x, y⟩ p
  | .strokeCircle cx cy r2 => ringCovered (distSq p ⟨cx, cy⟩) r2 lw
  | .strokeTriangle a1 a2 b1 b2 c1 c2 =>
      segCovered lw ⟨a1, a2⟩ ⟨b1, b2⟩ p ||
      segCovered lw ⟨b1, b2⟩ ⟨c1, c2⟩ p ||
      segCovered lw ⟨c1, c2⟩ ⟨a1, a2⟩ p

/-- Modelled from the spec: whether a pixel lies on one of the round-joined
segments connecting the consecutive points of a stroke. -/
def strokeHits (s : DrawStroke) (p : Pt) : Bool :=
  (s.points.zip s.points.tail).any fun q => segCovered s.width q.1 q.2 p

/-- Paint every pixel whose flat index satisfies cov to the opaque color c,
leaving the rest untouched (opaque replacement semantics). -/
def paintGo (cov : Nat → Bool) (c : Pixel) : Nat → List Pixel → List Pixel
  | _, [] => []
  | i, px :: rest => (if cov i then c else px) :: paintGo cov c (i + 1) rest

/-- The canvas point at the center of the pixel with flat index i in a buffer
of width w. -/
def pixPt (w : Nat) (i : Nat) : Pt := ⟨(i % w : Nat), (i / w : Nat)⟩

/-- Modelled from the spec: the pixel effect of drawShape, painting the
covered outline pixels with the opaque shape color. -/
def paintShape (b : Buffer) (d : DrawShape) : Buffer :=
  { b with
    data := paintGo (fun i => cmdCovers (drawShape d) d.width (pixPt b.w i))
      ⟨d.color.r, d.color.g, d.color.b, 255⟩ 0 b.data }

/-- drawStroke (PaintCanvas.tsx lines 78-92): a stroke with fewer than two
points renders nothing; otherwise the polyline through its points is stroked.
The pixel effect of the stroking is modelled from the spec (opaque
replacement). -/
def paintStroke (b : Buffer) (s : DrawStroke) : Buffer :=
  if s.points.length < 2 then b
  else
    { b with
      data := paintGo (fun i => strokeHits s (pixPt b.w i))
        ⟨s.color.r, s.color.g, s.color.b, 255⟩ 0 b.data }

/-! ## floodFill (PaintCanvas.tsx lines 118-162) -/

/-- Read a flat pixel index of the ImageData array exactly as JS does: a
negative or past-the-end index reads undefined, embedded as none. -/
def flatRead (d : List Pixel) (i : Int) : Option Pixel :=
  if 0 ≤ i then d[i.toNat]? else none

/-- The iterative work-stack loop of floodFill, with explicit fuel so the
definition is total; the loop pops a position, skips it when out of bounds,
and when its current color equals the seed color repaints it with the fill
color and pushes its four neighbours. -/
def fillGo (w h : Nat) (startC : Option Pixel) (fillPx : Pixel) :
    Nat → List Pixel → List (Int × Int) → Option (List Pixel)
  | _, d, [] => some d
  | 0, _, _ :: _ => none
  | fuel + 1, d, (cx, cy) :: rest =>
    if cx < 0 ∨ (w : Int) ≤ cx ∨ cy < 0 ∨ (h : Int) ≤ cy then
      fillGo w h startC fillPx fuel d rest
    else
      if d[(cy * (w : Int) + cx).toNat]? = startC then
        fillGo w h startC fillPx fuel (d.set (cy * (w : Int) + cx).toNat fillPx)
          ((cx, cy - 1) :: (cx, cy + 1) :: (cx - 1, cy) :: (cx + 1, cy) :: rest)
      else
        fillGo w h startC fillPx fuel d rest

/-- floodFill on floored seed coordinates: reads the seed color through the
flat index (as the source does, without a bounds check), returns the buffer
unchanged when the fill color equals the seed color in all four channels,
and otherwise runs the work-stack loop.  The fuel 5*w*h+2 dominates the loop
measure, so the loop never actually runs out (proved below). -/
def floodFillRun (w h : Nat) (d : List Pixel) (fx fy : Int) (fill : RGB) :
    Option (List Pixel) :=
  if some (⟨fill.r, fill.g, fill.b, 255⟩ : Pixel) = flatRead d (fy * (w : Int) + fx) then
    some d
  else
    fillGo w h (flatRead d (fy * (w : Int) + fx)) ⟨fill.r, fill.g, fill.b, 255⟩
      (5 * w * h + 2) d [(fx, fy)]

/-- floodFill: floors the seed coordinates and runs the loop; if the fuel
were ever exhausted the buffer would be left unchanged. -/
def floodFill (b : Buffer) (x y : ℚ) (fill : RGB) : Buffer :=
  match floodFillRun b.w b.h b.data ⌊x⌋ ⌊y⌋ fill with
  | some d => { b with data := d }
  | none => b

/-! ## redrawCanvas (PaintCanvas.tsx lines 166-197) -/

/-- One step of the history replay: clear resets the buffer to blank at the
canvas dimensions; the other variants paint onto the current buffer. -/
def applyAction (b : Buffer) (a : CanvasAction) : Buffer :=
  match a.data with
  | .clear => blank b.w b.h
  | .stroke s => paintStroke b s
  | .shape s => paintShape b s
  | .fill f => floodFill b f.point.x f.point.y f.color

/-- redrawCanvas: clear everything, then replay the history in order.  This
is the reconstruct function of the spec. -/
def redrawCanvas (w h : Nat) (actions : List CanvasAction) : Buffer :=
  actions.foldl applyAction (blank w h)

/-! ## Server session and history state (src unnamed server file) -/

/-- User (types.ts): id, display name, host flag and display color. -/
structure User where
  id : String
  username : String
  isHost : Bool
  color : String
  deriving DecidableEq

/-- Room record held by the server: users in join order, history and redo
stack of durable actions. -/
structure Room where
  users : List User
  history : List CanvasAction
  redoStack : List CanvasAction
  deriving DecidableEq

/-- The live room map keyed by room id, embedded as an association list in
insertion order (a JS Map with unique keys). -/
abbrev Rooms : Type := List (String × Room)

/-- Map.get. -/
def mapGet (k : String) : Rooms → Option Room
  | [] => none
  | (k2, v) :: rest => if k2 = k then some v else mapGet k rest

/-- Map.set: replace in place when the key exists, append otherwise. -/
def mapSet (k : String) (v : Room) : Rooms → Rooms
  | [] => [(k, v)]
  | (k2, v2) :: rest => if k2 = k then (k, v) :: rest else (k2, v2) :: mapSet k v rest

/-- Map.delete. -/
def mapDel (k : String) (m : Rooms) : Rooms :=
  m.filter fun p => decide (p.1 ≠ k)

/-- The outbound notifications the server emits while handling one intent. -/
inductive Event where
  | roomJoined (roomId : String) (users : List User)
  | userJoined (u : User)
  | userLeft (userId : String)
  | roomUpdated (users : List User)
  | userKicked (userId : String)
  | historySync (history : List CanvasAction)
  | historyAction (a : CanvasAction)
  | gameStarted (roomId : String)
  | errorRoomNotFound
  deriving DecidableEq

/-! ### Action history manager -/

/-- addToHistory: push the action, clear the redo stack, and if the history
now exceeds 500 entries shift off the oldest one. -/
def addToHistory (room : Room) (action : CanvasAction) : Room :=
  let hist := room.history ++ [action]
  { room with
    history := if 500 < hist.length then hist.tail else hist
    redoStack := [] }

/-- An empty room state as create_room installs it (users are irrelevant to
the history claims). -/
def emptyRoom : Room := ⟨[], [], []⟩

/-- Appending a whole sequence of durable actions to a fresh room. -/
def appendAll (acts : List CanvasAction) : Room :=
  acts.foldl addToHistory emptyRoom

/-- Array.pop on a JS array embedded on lists: removes and returns the last
element, or none on the empty array. -/
def popLast {α : Type} : List α → Option (List α × α)
  | [] => none
  | x :: rest =>
    match popLast rest with
    | none => some ([], x)
    | some (l, y) => some (x :: l, y)

/-- The undo handler, per room: a silent no-op when the history is empty,
otherwise pops the last action onto the redo stack and broadcasts the entire
remaining history. -/
def undoRoom (room : Room) : Room × Option (List CanvasAction) :=
  match popLast room.history with
  | none => (room, none)
  | some (h, a) =>
    let room2 := { room with history := h, redoStack := room.redoStack ++ [a] }
    (room2, some room2.history)

/-- The redo handler, per room: a silent no-op when the redo stack is empty,
otherwise pops its top back onto the history and broadcasts the entire
history. -/
def redoRoom (room : Room) : Room × Option (List CanvasAction) :=
  match popLast room.redoStack with
  | none => (room, none)
  | some (s, a) =>
    let room2 := { room with history := room.history ++ [a], redoStack := s }
    (room2, some room2.history)

/-! ### Session registry -/

/-- Number of members holding host authority. -/
def hostCount (us : List User) : Nat := us.countP fun u => u.isHost

/-- users.splice(index, 1) after findIndex: remove the first user with the
given id, keeping the rest in order. -/
def removeUser (sid : String) : List User → List User
  | [] => []
  | u :: rest => if u.id = sid then rest else u :: removeUser sid rest

/-- room.users[0].isHost = true: grant host authority to the first member. -/
def setFirstHost : List User → List User
  | [] => []
  | u :: rest => { u with isHost := true } :: rest

/-- Host migration after a removal: if the removed member held host
authority and members remain, the member now first in the list gets the host
flag; otherwise the list is unchanged. -/
def migrateUsers (u : User) (users2 : List User) : List User :=
  if u.isHost ∧ users2 ≠ [] then setFirstHost users2 else users2

/-- handleLeave: look the room up; if the leaving socket is a member, remove
it; if it was the host and members remain, the first remaining member becomes
host (room_updated broadcast); if the room became empty it is deleted,
otherwise user_left is broadcast. -/
def handleLeave (roomId sid : String) (m : Rooms) : Rooms × List Event :=
  match mapGet roomId m with
  | none => (m, [])
  | some room =>
    match room.users.find? (fun u => u.id = sid) with
    | none => (m, [])
    | some u =>
      let users3 := migrateUsers u (removeUser sid room.users)
      let evs1 : List Event :=
        if u.isHost ∧ removeUser sid room.users ≠ [] then [.roomUpdated users3]
        else []
      if users3.isEmpty then (mapDel roomId m, evs1)
      else (mapSet roomId { room with users := users3 } m, evs1 ++ [.userLeft sid])

/-- create_room: install a fresh room whose sole member is the caller with
host authority, with empty history and redo stack. -/
def createRoom (roomId uid uname ucolor : String) (m : Rooms) : Rooms × List Event :=
  let user : User := ⟨uid, uname, true, ucolor⟩
  (mapSet roomId ⟨[user], [], []⟩ m, [.roomJoined roomId [user]])

/-- join_room: error to the caller when the room id is unknown; otherwise the
joiner (without host authority) is appended to the member list, the others
are notified, and the joiner receives the membership and the full history. -/
def joinRoom (roomId uid uname ucolor : String) (m : Rooms) : Rooms × List Event :=
  match mapGet roomId m with
  | none => (m, [.errorRoomNotFound])
  | some room =>
    let user : User := ⟨uid, uname, false, ucolor⟩
    let room2 := { room with users := room.users ++ [user] }
    (mapSet roomId room2 m,
      [.userJoined user, .roomJoined roomId room2.users, .historySync room.history])

/-- kick_user: silently ignored unless the requesting socket is a member of
the room holding host authority; on success the target is notified it was
kicked and then removed through handleLeave.  (The transport-level check that
the target socket still exists is external.) -/
def kickUser (roomId requesterId targetId : String) (m : Rooms) : Rooms × List Event :=
  match mapGet roomId m with
  | none => (m, [])
  | some room =>
    match room.users.find? (fun u => u.id = requesterId) with
    | none => (m, [])
    | some req =>
      if req.isHost then
        let r := handleLeave roomId targetId m
        (r.1, .userKicked targetId :: r.2)
      else (m, [])

/-- disconnect: the leave path is applied for every room (handleLeave itself
is a no-op on rooms the socket is not a member of). -/
def disconnectAll (sid : String) (m : Rooms) : Rooms :=
  (m.map Prod.fst).foldl (fun acc rid => (handleLeave rid sid acc).1) m

/-- The room invariant of the spec: every room present in the map has a
non-empty member list (a room whose member list becomes empty is destroyed)
with exactly one member holding host authority; in particular every room
with a non-empty member list has exactly one host. -/
def InvRooms (m : Rooms) : Prop :=
  ∀ p ∈ m, p.2.users ≠ [] ∧ hostCount p.2.users = 1

/-! ## Flood-fill soundness vocabulary

The statements about which pixels a flood fill may repaint are phrased with
the following notions over integer pixel coordinates. -/

/-- A pixel coordinate lies inside a w-by-h canvas. -/
def inB (w h : Nat) (p : Int × Int) : Prop :=
  0 ≤ p.1 ∧ p.1 < (w : Int) ∧ 0 ≤ p.2 ∧ p.2 < (h : Int)

/-- Row-major flat index of a pixel coordinate. -/
def posIdx (w : Nat) (p : Int × Int) : Nat := (p.2 * (w : Int) + p.1).toNat

/-- The pixel stored at a coordinate of a flat buffer. -/
def readAt (w : Nat) (d : List Pixel) (p : Int × Int) : Option Pixel :=
  d[posIdx w p]?

/-- The color floodFill reads at its seed: the flat (unchecked, as in the
source) read at the floored seed coordinates. -/
def seedColor (b : Buffer) (x y : ℚ) : Option Pixel :=
  flatRead b.data (⌊y⌋ * (b.w : Int) + ⌊x⌋)

/-- 4-connectivity of pixel coordinates. -/
def Adj (p q : Int × Int) : Prop :=
  q = (p.1 + 1, p.2) ∨ q = (p.1 - 1, p.2) ∨ q = (p.1, p.2 + 1) ∨ q = (p.1, p.2 - 1)

/-- The pixels 4-connected to the seed through in-bounds pixels whose
original color is exactly the seed color (the seed itself included when it
is in bounds and carries that color). -/
inductive ConnFill (w h : Nat) (d0 : List Pixel) (c : Option Pixel)
    (seed : Int × Int) : (Int × Int) → Prop where
  | base : inB w h seed → readAt w d0 seed = c → ConnFill w h d0 c seed seed
  | step (p q : Int × Int) : ConnFill w h d0 c seed p → Adj p q → inB w h q →
      readAt w d0 q = c → ConnFill w h d0 c seed q

/-- The y coordinate of the apex vertex of a triangle path command. -/
def triApexY : RenderCmd → ℚ
  | .strokeTriangle _ a2 _ _ _ _ => a2
  | _ => 0

/-! ## Lemmas about the reconstruction engine -/

theorem paintGo_length (cov : Nat → Bool) (c : Pixel) :
    ∀ (i : Nat) (l : List Pixel), (paintGo cov c i l).length = l.length := by
  intro i l
  induction l generalizing i with
  | nil => rfl
  | cons px rest ih => simp [paintGo, ih]

theorem paintGo_idem (cov : Nat → Bool) (c : Pixel) :
    ∀ (i : Nat) (l : List Pixel),
      paintGo cov c i (paintGo cov c i l) = paintGo cov c i l := by
  intro i l
  induction l generalizing i with
  | nil => rfl
  | cons px rest ih =>
    by_cases hc : cov i <;> simp [paintGo, hc, ih]

theorem fillGo_length (w h : Nat) (startC : Option Pixel) (fillPx : Pixel) :
    ∀ (fuel : Nat) (d : List Pixel) (st : List (Int × Int)) (d2 : List Pixel),
      fillGo w h startC fillPx fuel d st = some d2 → d2.length = d.length := by
  intro fuel
  induction fuel with
  | zero =>
    intro d st d2 hgo
    cases st with
    | nil => cases hgo; rfl
    | cons q rest => simp [fillGo] at hgo
  | succ fuel ih =>
    intro d st d2 hgo
    cases st with
    | nil => cases hgo; rfl
    | cons q rest =>
      obtain ⟨cx, cy⟩ := q
      rw [fillGo] at hgo
      split at hgo
      · exact ih d rest d2 hgo
      · split at hgo
        · have := ih _ _ _ hgo
          simpa using this
        · exact ih d rest d2 hgo

theorem paintShape_w (b : Buffer) (d : DrawShape) : (paintShape b d).w = b.w := rfl

theorem paintShape_h (b : Buffer) (d : DrawShape) : (paintShape b d).h = b.h := rfl

theorem paintStroke_w (b : Buffer) (s : DrawStroke) : (paintStroke b s).w = b.w := by
  unfold paintStroke; split <;> rfl

theorem paintStroke_h (b : Buffer) (s : DrawStroke) : (paintStroke b s).h = b.h := by
  unfold paintStroke; split <;> rfl

theorem floodFill_w (b : Buffer) (x y : ℚ) (c : RGB) : (floodFill b x y c).w = b.w := by
  unfold floodFill; split <;> rfl

theorem floodFill_h (b : Buffer) (x y : ℚ) (c : RGB) : (floodFill b x y c).h = b.h := by
  unfold floodFill; split <;> rfl

theorem applyAction_w (b : Buffer) (a : CanvasAction) : (applyAction b a).w = b.w := by
  unfold applyAction
  cases a.data with
  | clear => rfl
  | stroke s => exact paintStroke_w b s
  | shape s => exact paintShape_w b s
  | fill f => exact floodFill_w b _ _ _

theorem applyAction_h (b : Buffer) (a : CanvasAction) : (applyAction b a).h = b.h := by
  unfold applyAction
  cases a.data with
  | clear => rfl
  | stroke s => exact paintStroke_h b s
  | shape s => exact paintShape_h b s
  | fill f => exact floodFill_h b _ _ _

theorem blank_wf (w h : Nat) : (blank w h).wf := by
  simp [blank, Buffer.wf]

theorem paintShape_wf (b : Buffer) (d : DrawShape) (hb : b.wf) : (paintShape b d).wf := by
  simpa [paintShape, Buffer.wf, paintGo_length] using hb

theorem paintStroke_wf (b : Buffer) (s : DrawStroke) (hb : b.wf) : (paintStroke b s).wf := by
  unfold paintStroke
  split
  · exact hb
  · simpa [Buffer.wf, paintGo_length] using hb

theorem floodFill_wf (b : Buffer) (x y : ℚ) (c : RGB) (hb : b.wf) :
    (floodFill b x y c).wf := by
  unfold floodFill
  cases hrun : floodFillRun b.w b.h b.data ⌊x⌋ ⌊y⌋ c with
  | none => exact hb
  | some d2 =>
    unfold floodFillRun at hrun
    split at hrun
    · cases hrun
      exact hb
    · have := fillGo_length b.w b.h _ _ _ _ _ _ hrun
      simpa [Buffer.wf, this] using hb

theorem applyAction_wf (b : Buffer) (a : CanvasAction) (hb : b.wf) : (applyAction b a).wf := by
  unfold applyAction
  cases a.data with
  | clear => exact blank_wf _ _
  | stroke s => exact paintStroke_wf b s hb
  | shape s => exact paintShape_wf b s hb
  | fill f => exact floodFill_wf b _ _ _ hb

theorem foldl_applyAction_w (l : List CanvasAction) :
    ∀ b : Buffer, (l.foldl applyAction b).w = b.w := by
  induction l with
  | nil => intro b; rfl
  | cons a rest ih => intro b; rw [List.foldl_cons, ih, applyAction_w]

theorem foldl_applyAction_h (l : List CanvasAction) :
    ∀ b : Buffer, (l.foldl applyAction b).h = b.h := by
  induction l with
  | nil => intro b; rfl
  | cons a rest ih => intro b; rw [List.foldl_cons, ih, applyAction_h]

theorem foldl_applyAction_wf (l : List CanvasAction) :
    ∀ b : Buffer, b.wf → (l.foldl applyAction b).wf := by
  induction l with
  | nil => intro b hb; exact hb
  | cons a rest ih => intro b hb; exact ih _ (applyAction_wf b a hb)

theorem redrawCanvas_wf (w h : Nat) (l : List CanvasAction) : (redrawCanvas w h l).wf :=
  foldl_applyAction_wf l _ (blank_wf w h)

theorem redrawCanvas_w (w h : Nat) (l : List CanvasAction) : (redrawCanvas w h l).w = w :=
  foldl_applyAction_w l _

theorem redrawCanvas_h (w h : Nat) (l : List CanvasAction) : (redrawCanvas w h l).h = h :=
  foldl_applyAction_h l _

theorem buffer_eta (b : Buffer) : ({ w := b.w, h := b.h, data := b.data } : Buffer) = b := rfl

theorem paintShape_idem (b : Buffer) (d : DrawShape) :
    paintShape (paintShape b d) d = paintShape b d := by
  simp [paintShape, paintGo_idem]

theorem paintStroke_idem (b : Buffer) (s : DrawStroke) :
    paintStroke (paintStroke b s) s = paintStroke b s := by
  unfold paintStroke
  split
  · rfl
  · simp [paintGo_idem]

theorem fillGo_keep (w h : Nat) (startC : Option Pixel) (fillPx : Pixel) (pos0 : Nat) :
    ∀ (fuel : Nat) (d : List Pixel) (st : List (Int × Int)) (d2 : List Pixel),
      d[pos0]? = some fillPx → fillGo w h startC fillPx fuel d st = some d2 →
      d2[pos0]? = some fillPx := by
  intro fuel
  induction fuel with
  | zero =>
    intro d st d2 hd hgo
    cases st with
    | nil => cases hgo; exact hd
    | cons q rest => simp [fillGo] at hgo
  | succ fuel ih =>
    intro d st d2 hd hgo
    cases st with
    | nil => cases hgo; exact hd
    | cons q rest =>
      obtain ⟨cx, cy⟩ := q
      rw [fillGo] at hgo
      split at hgo
      · exact ih d rest d2 hd hgo
      · split at hgo
        · refine ih _ _ _ ?_ hgo
          by_cases hp : (cy * (w : Int) + cx).toNat = pos0
          · subst hp
            have hl : (cy * (w : Int) + cx).toNat < d.length := by
              by_contra hcon
              rw [List.getElem?_eq_none (Nat.le_of_not_lt hcon)] at hd
              cases hd
            exact List.getElem?_set_eq_of_lt fillPx hl
          · rw [List.getElem?_set_ne hp]; exact hd
        · exact ih d rest d2 hd hgo

theorem floodFill_idem (b : Buffer) (x y : ℚ) (c : RGB) (hb : b.wf) :
    floodFill (floodFill b x y c) x y c = floodFill b x y c := by
  cases hrun : floodFillRun b.w b.h b.data ⌊x⌋ ⌊y⌋ c with
  | none =>
    have hfb : floodFill b x y c = b := by
      unfold floodFill; rw [hrun]
    rw [hfb]
    exact hfb
  | some d2 =>
    have hfb : floodFill b x y c = { w := b.w, h := b.h, data := d2 } := by
      unfold floodFill; rw [hrun]
    rw [hfb]
    unfold floodFillRun at hrun
    split at hrun
    · -- early return: the seed color already equals the fill color
      cases hrun
      rw [buffer_eta] at hfb ⊢
      exact hfb
    · rename_i hne
      have hstep : (5 * b.w * b.h + 2) = (5 * b.w * b.h + 1) + 1 := rfl
      rw [hstep, fillGo] at hrun
      split at hrun
      · -- seed out of bounds: one popped element, loop over empty stack
        rename_i hoob
        rw [fillGo] at hrun
        cases hrun
        rw [buffer_eta] at hfb ⊢
        exact hfb
      · rename_i hoob
        push_neg at hoob
        obtain ⟨hx0, hxw, hy0, hyh⟩ := hoob
        -- the seed flat index is in range
        have hidx0 : (0 : Int) ≤ ⌊y⌋ * (b.w : Int) + ⌊x⌋ :=
          add_nonneg (mul_nonneg hy0 (by positivity)) hx0
        have hidxlt : ⌊y⌋ * (b.w : Int) + ⌊x⌋ < ((b.w * b.h : Nat) : Int) := by
          push_cast
          nlinarith [mul_le_mul_of_nonneg_right
            (show ⌊y⌋ ≤ (b.h : Int) - 1 by linarith)
            (show (0 : Int) ≤ (b.w : Int) by positivity)]
        have hposlt : (⌊y⌋ * (b.w : Int) + ⌊x⌋).toNat < b.data.length := by
          rw [hb]
          omega
        split at hrun
        · -- the seed matches its own color and is repainted first
          rename_i hmatch
          have hset : (b.data.set (⌊y⌋ * (b.w : Int) + ⌊x⌋).toNat
              ⟨c.r, c.g, c.b, 255⟩)[(⌊y⌋ * (b.w : Int) + ⌊x⌋).toNat]? =
              some ⟨c.r, c.g, c.b, 255⟩ :=
            List.getElem?_set_eq_of_lt _ hposlt
          have hkeep := fillGo_keep b.w b.h _ _ _ _ _ _ _ hset hrun
          -- second run: the seed now holds the fill color, so it returns early
          unfold floodFill floodFillRun
          have hread : flatRead d2 (⌊y⌋ * (b.w : Int) + ⌊x⌋) =
              some ⟨c.r, c.g, c.b, 255⟩ := by
            unfold flatRead
            rw [if_pos hidx0]
            exact hkeep
          simp [hread]
        · -- impossible: the seed color is read through the same flat index
          rename_i hmatch
          exfalso
          apply hmatch
          unfold flatRead
          rw [if_pos hidx0]

/-- C1: reconstructing a history with any Shape, Fill, or Clear action
appended twice yields the same pixel buffer as reconstructing it with the
action appended once: duplicate application of a durable non-stroke action is
idempotent. -/
theorem claim1_duplicate_idempotent (w h : Nat) (hist : List CanvasAction)
    (a : CanvasAction) (ha : a.data.isStroke = false) :
    redrawCanvas w h (hist ++ [a, a]) = redrawCanvas w h (hist ++ [a]) := by
  unfold redrawCanvas
  rw [List.foldl_append, List.foldl_append]
  simp only [List.foldl_cons, List.foldl_nil]
  have hwf : (List.foldl applyAction (blank w h) hist).wf :=
    foldl_applyAction_wf hist _ (blank_wf w h)
  cases hd : a.data with
  | stroke s => simp [ActionData.isStroke, hd] at ha
  | shape s =>
    show applyAction (applyAction _ a) a = applyAction _ a
    unfold applyAction
    rw [hd]
    exact paintShape_idem _ s
  | fill f =>
    show applyAction (applyAction _ a) a = applyAction _ a
    unfold applyAction
    rw [hd]
    exact floodFill_idem _ _ _ _ hwf
  | clear =>
    show applyAction (applyAction _ a) a = applyAction _ a
    unfold applyAction
    rw [hd]
    rfl

theorem claim1_witness :
    (⟨"c1", "u", 0, ActionData.clear⟩ : CanvasAction).data.isStroke = false ∧
    redrawCanvas 2 2
        ([] ++ [⟨"c1", "u", 0, ActionData.clear⟩, ⟨"c1", "u", 0, ActionData.clear⟩]) =
      redrawCanvas 2 2 ([] ++ [⟨"c1", "u", 0, ActionData.clear⟩]) :=
  ⟨by decide, claim1_duplicate_idempotent 2 2 [] ⟨"c1", "u", 0, ActionData.clear⟩ (by decide)⟩

/-! ## Termination of the flood-fill work-stack loop -/

theorem seedIdx_nonneg (w : Nat) (cx cy : Int) (hx0 : 0 ≤ cx) (hy0 : 0 ≤ cy) :
    (0 : Int) ≤ cy * (w : Int) + cx :=
  add_nonneg (mul_nonneg hy0 (by positivity)) hx0

theorem seedIdx_lt (w h : Nat) (cx cy : Int) (hx0 : 0 ≤ cx) (hxw : cx < (w : Int))
    (hy0 : 0 ≤ cy) (hyh : cy < (h : Int)) :
    (cy * (w : Int) + cx).toNat < w * h := by
  have hlt : cy * (w : Int) + cx < ((w * h : Nat) : Int) := by
    push_cast
    nlinarith [mul_le_mul_of_nonneg_right
      (show cy ≤ (h : Int) - 1 by linarith)
      (show (0 : Int) ≤ (w : Int) by positivity)]
  exact (Int.toNat_lt (seedIdx_nonneg w cx cy hx0 hy0)).mpr hlt

theorem countP_set_drop (p : Pixel → Bool) :
    ∀ (l : List Pixel) (n : Nat) (a x : Pixel),
      l[n]? = some x → p x = true → p a = false →
      (l.set n a).countP p + 1 = l.countP p := by
  intro l
  induction l with
  | nil => intro n a x hx; simp at hx
  | cons y rest ih =>
    intro n a x hx hpx hpa
    cases n with
    | zero =>
      simp only [List.getElem?_cons_zero, Option.some_inj] at hx
      subst hx
      simp [List.countP_cons, hpx, hpa]
    | succ n =>
      simp only [List.getElem?_cons_succ] at hx
      simp only [List.set_cons_succ, List.countP_cons]
      have := ih n a x hx hpx hpa
      omega

theorem fillGo_total (w h : Nat) (startC : Option Pixel) (fillPx : Pixel)
    (hne : some fillPx ≠ startC) :
    ∀ (fuel : Nat) (d : List Pixel) (st : List (Int × Int)),
      d.length = w * h →
      5 * d.countP (fun px => decide (some px = startC)) + st.length ≤ fuel →
      (fillGo w h startC fillPx fuel d st).isSome := by
  intro fuel
  induction fuel with
  | zero =>
    intro d st hlen hm
    cases st with
    | nil => simp [fillGo]
    | cons q rest => simp at hm
  | succ fuel ih =>
    intro d st hlen hm
    cases st with
    | nil => simp [fillGo]
    | cons q rest =>
      obtain ⟨cx, cy⟩ := q
      rw [fillGo]
      split
      · refine ih d rest hlen ?_
        simp only [List.length_cons] at hm
        omega
      · rename_i hoob
        push_neg at hoob
        obtain ⟨hx0, hxw, hy0, hyh⟩ := hoob
        have hposlt : (cy * (w : Int) + cx).toNat < d.length := by
          rw [hlen]; exact seedIdx_lt w h cx cy hx0 hxw hy0 hyh
        split
        · rename_i hmt
          refine ih _ _ (by simpa using hlen) ?_
          have hget : d[(cy * (w : Int) + cx).toNat]? =
              some (d.get ⟨(cy * (w : Int) + cx).toNat, hposlt⟩) := by
            simp [List.getElem?_eq_getElem hposlt]
          have hx : (fun px => decide (some px = startC))
              (d.get ⟨(cy * (w : Int) + cx).toNat, hposlt⟩) = true := by
            simp only [decide_eq_true_eq]
            rw [← hmt, hget]
          have ha : (fun px => decide (some px = startC)) fillPx = false := by
            simpa using hne
          have hdrop := countP_set_drop (fun px => decide (some px = startC))
            d ((cy * (w : Int) + cx).toNat) fillPx
            (d.get ⟨(cy * (w : Int) + cx).toNat, hposlt⟩) hget hx ha
          simp only [List.length_cons] at hm ⊢
          omega
        · refine ih d rest hlen ?_
          simp only [List.length_cons] at hm
          omega

/-- C10: the iterative flood-fill work-stack loop terminates for every
well-formed pixel buffer, every seed point and every fill color: the fuel
bound 5*w*h+2 dominates the loop measure, so floodFillRun always returns a
buffer (it never exhausts its fuel), because the early return guarantees
that inside the loop the fill color differs from the seed color and every
repainted pixel permanently stops matching it. -/
theorem claim10_loop_terminates (b : Buffer) (x y : ℚ) (fill : RGB) (hb : b.wf) :
    ∃ d2, floodFillRun b.w b.h b.data ⌊x⌋ ⌊y⌋ fill = some d2 := by
  unfold floodFillRun
  split
  · exact ⟨b.data, rfl⟩
  · rename_i hne
    rw [← Option.isSome_iff_exists]
    refine fillGo_total b.w b.h _ _ hne _ b.data _ hb ?_
    have hcle : b.data.countP
        (fun px => decide (some px = flatRead b.data (⌊y⌋ * (b.w : Int) + ⌊x⌋))) ≤
        b.data.length := List.countP_le_length _
    rw [hb] at hcle
    simp only [List.length_cons, List.length_nil]
    rw [Nat.mul_assoc]
    omega

theorem claim10_witness :
    (⟨1, 1, [⟨0, 0, 0, 0⟩]⟩ : Buffer).wf ∧
    ∃ d2, floodFillRun 1 1 [⟨0, 0, 0, 0⟩] ⌊(0 : ℚ)⌋ ⌊(0 : ℚ)⌋ ⟨7, 8, 9⟩ = some d2 :=
  ⟨rfl, claim10_loop_terminates ⟨1, 1, [⟨0, 0, 0, 0⟩]⟩ 0 0 ⟨7, 8, 9⟩ rfl⟩

/-! ## Clear semantics and history capacity -/

/-- C8: during reconstruction a Clear action resets the buffer to blank
without discarding subsequent entries, so reconstructing h1 ++ [Clear] ++ h2
equals reconstructing h2 alone on a blank buffer of the same dimensions; and
appending a Clear goes through the ordinary history append, so it does not
truncate the history. -/
theorem claim8_clear_resets (w h : Nat) (a : CanvasAction) (ha : a.data = .clear)
    (h1 h2 : List CanvasAction) (r : Room) (hlen : r.history.length < 500) :
    redrawCanvas w h (h1 ++ a :: h2) = redrawCanvas w h h2 ∧
    (addToHistory r a).history = r.history ++ [a] := by
  constructor
  · unfold redrawCanvas
    rw [List.foldl_append, List.foldl_cons]
    have hclear : applyAction (List.foldl applyAction (blank w h) h1) a =
        blank (List.foldl applyAction (blank w h) h1).w
          (List.foldl applyAction (blank w h) h1).h := by
      unfold applyAction
      rw [ha]
    rw [hclear, foldl_applyAction_w, foldl_applyAction_h]
    rfl
  · unfold addToHistory
    have hc : ¬ 500 < (r.history ++ [a]).length := by
      simp only [List.length_append, List.length_cons, List.length_nil]
      omega
    simp only [hc, if_false]

theorem claim8_witness :
    (⟨"c8", "u", 0, ActionData.clear⟩ : CanvasAction).data = ActionData.clear ∧
    emptyRoom.history.length < 500 ∧
    (redrawCanvas 1 1 ([] ++ ⟨"c8", "u", 0, ActionData.clear⟩ :: []) =
        redrawCanvas 1 1 [] ∧
      (addToHistory emptyRoom ⟨"c8", "u", 0, ActionData.clear⟩).history =
        emptyRoom.history ++ [⟨"c8", "u", 0, ActionData.clear⟩]) :=
  ⟨rfl, by simp [emptyRoom],
    claim8_clear_resets 1 1 ⟨"c8", "u", 0, ActionData.clear⟩ rfl [] [] emptyRoom
      (by simp [emptyRoom])⟩

theorem foldl_addToHistory_drop :
    ∀ (acts : List CanvasAction) (r : Room), r.history.length ≤ 500 →
      (acts.foldl addToHistory r).history =
        (r.history ++ acts).drop ((r.history ++ acts).length - 500) := by
  intro acts
  induction acts with
  | nil =>
    intro r hr
    simp [Nat.sub_eq_zero_of_le hr]
  | cons a rest ih =>
    intro r hr
    rw [List.foldl_cons]
    by_cases hc : 500 < (r.history ++ [a]).length
    · have hlen500 : r.history.length = 500 := by
        simp only [List.length_append, List.length_cons, List.length_nil] at hc
        omega
      have hne : r.history ≠ [] := by
        intro hnil
        rw [hnil] at hlen500
        simp at hlen500
      have hhist : (addToHistory r a).history = (r.history ++ [a]).tail := by
        unfold addToHistory
        simp only [hc, if_true]
      have hlen2 : (addToHistory r a).history.length ≤ 500 := by
        rw [hhist, List.length_tail]
        simp only [List.length_append, List.length_cons, List.length_nil]
        omega
      rw [ih _ hlen2, hhist]
      have hlist : (r.history ++ [a]).tail ++ rest = (r.history ++ a :: rest).drop 1 := by
        cases hh : r.history with
        | nil => exact absurd hh hne
        | cons u us => simp
      have hcount : ((r.history ++ [a]).tail ++ rest).length - 500 =
          (r.history ++ a :: rest).length - 501 := by
        simp only [List.length_append, List.length_tail, List.length_cons,
          List.length_nil]
        omega
      rw [hcount, hlist, List.drop_drop]
      have harith : 1 + ((r.history ++ a :: rest).length - 501) =
          (r.history ++ a :: rest).length - 500 := by
        simp only [List.length_append, List.length_cons]
        omega
      rw [harith]
    · have hhist : (addToHistory r a).history = r.history ++ [a] := by
        unfold addToHistory
        simp only [hc, if_false]
      have hlen2 : (addToHistory r a).history.length ≤ 500 := by
        rw [hhist]
        simp only [List.length_append, List.length_cons, List.length_nil] at hc ⊢
        omega
      rw [ih _ hlen2, hhist]
      simp [List.append_assoc]

/-- C2: the history length never exceeds the capacity 500 (the bound is
preserved by every append), an append from a full history of 500 evicts
exactly the oldest entry, and appending any sequence of actions to a fresh
room leaves exactly the most recent 500 of them, in order. -/
theorem claim2_history_cap (r : Room) (a : CanvasAction) (acts : List CanvasAction)
    (hr : r.history.length ≤ 500) :
    (addToHistory r a).history.length ≤ 500 ∧
    (r.history.length = 500 → (addToHistory r a).history = r.history.tail ++ [a]) ∧
    (appendAll acts).history = acts.drop (acts.length - 500) ∧
    (appendAll acts).history.length = min acts.length 500 := by
  have hfull : ∀ r2 : Room, r2.history.length ≤ 500 →
      (addToHistory r2 a).history.length ≤ 500 := by
    intro r2 hr2
    show (if 500 < (r2.history ++ [a]).length then (r2.history ++ [a]).tail
        else r2.history ++ [a]).length ≤ 500
    split
    · simp only [List.length_tail, List.length_append, List.length_cons,
        List.length_nil]
      omega
    · rename_i hc
      simp only [List.length_append, List.length_cons, List.length_nil] at hc ⊢
      omega
  have hdropAll : (appendAll acts).history = acts.drop (acts.length - 500) := by
    unfold appendAll
    have := foldl_addToHistory_drop acts emptyRoom (by simp [emptyRoom])
    simpa [emptyRoom] using this
  refine ⟨hfull r hr, ?_, hdropAll, ?_⟩
  · intro h500
    unfold addToHistory
    have hc : 500 < (r.history ++ [a]).length := by
      simp only [List.length_append, List.length_cons, List.length_nil]
      omega
    simp only [hc, if_true]
    cases hh : r.history with
    | nil => rw [hh] at h500; simp at h500
    | cons u us => simp
  · rw [hdropAll, List.length_drop]
    omega

theorem claim2_witness :
    emptyRoom.history.length ≤ 500 ∧
    ((addToHistory emptyRoom ⟨"c2", "u", 0, ActionData.clear⟩).history.length ≤ 500 ∧
      (appendAll ([⟨"c2", "u", 0, ActionData.clear⟩] : List CanvasAction)).history =
        ([⟨"c2", "u", 0, ActionData.clear⟩] : List CanvasAction).drop
          (([⟨"c2", "u", 0, ActionData.clear⟩] : List CanvasAction).length - 500)) :=
  ⟨by simp [emptyRoom],
    (claim2_history_cap emptyRoom ⟨"c2", "u", 0, ActionData.clear⟩
      ([⟨"c2", "u", 0, ActionData.clear⟩] : List CanvasAction) (by simp [emptyRoom])).1,
    (claim2_history_cap emptyRoom ⟨"c2", "u", 0, ActionData.clear⟩
      ([⟨"c2", "u", 0, ActionData.clear⟩] : List CanvasAction) (by simp [emptyRoom])).2.2.1⟩

/-- C3 (amended): every append of a durable action clears the redo stack, so
a redo timeline interrupted by a new action is not recoverable; for any
actions X and Y, starting from an empty room, append(X); undo; append(Y);
redo leaves the history equal to [Y] (the undone X is permanently lost, it
does not reappear in front of Y) and the redo stack empty. -/
theorem claim3_append_clears_redo (X Y : CanvasAction) :
    (∀ (r : Room) (a : CanvasAction), (addToHistory r a).redoStack = []) ∧
    (redoRoom (addToHistory (undoRoom (addToHistory emptyRoom X)).1 Y)).1.history = [Y] ∧
    (redoRoom (addToHistory (undoRoom (addToHistory emptyRoom X)).1 Y)).1.redoStack = [] :=
  ⟨fun _ _ => rfl, rfl, rfl⟩

/-- C3 as stated is false on the code: with X and Y the concrete clear
actions below, the sequence append(X); undo; append(Y); redo leaves the
history [Y], not [X, Y]. -/
theorem claim3_counterexample :
    ¬ ((redoRoom (addToHistory (undoRoom (addToHistory emptyRoom
          ⟨"x", "u", 0, ActionData.clear⟩)).1 ⟨"y", "u", 0, ActionData.clear⟩)).1.history =
        [⟨"x", "u", 0, ActionData.clear⟩, ⟨"y", "u", 0, ActionData.clear⟩] ∧
      (redoRoom (addToHistory (undoRoom (addToHistory emptyRoom
          ⟨"x", "u", 0, ActionData.clear⟩)).1 ⟨"y", "u", 0, ActionData.clear⟩)).1.redoStack = []) := by
  intro hcon
  have := hcon.1
  simp [addToHistory, undoRoom, redoRoom, popLast, emptyRoom] at this

theorem popLast_append {α : Type} (l : List α) (a : α) :
    popLast (l ++ [a]) = some (l, a) := by
  induction l with
  | nil => rfl
  | cons x rest ih => simp [popLast, ih]

/-- C4: undo on an empty history is a silent no-op (state unchanged, no
broadcast) and otherwise moves exactly the last history entry onto the redo
stack, broadcasting the entire remaining history; redo on an empty redo
stack is a silent no-op and otherwise moves exactly the top of the redo
stack back onto the history, broadcasting the entire history. -/
theorem claim4_undo_redo_noop_and_move (r : Room) :
    (r.history = [] → undoRoom r = (r, none)) ∧
    (∀ (h : List CanvasAction) (a : CanvasAction), r.history = h ++ [a] →
      undoRoom r = ({ r with history := h, redoStack := r.redoStack ++ [a] }, some h)) ∧
    (r.redoStack = [] → redoRoom r = (r, none)) ∧
    (∀ (s : List CanvasAction) (a : CanvasAction), r.redoStack = s ++ [a] →
      redoRoom r = ({ r with history := r.history ++ [a], redoStack := s },
        some (r.history ++ [a]))) := by
  refine ⟨?_, ?_, ?_, ?_⟩
  · intro hh
    unfold undoRoom
    rw [hh]
    rfl
  · intro h a hh
    unfold undoRoom
    rw [hh, popLast_append]
  · intro hs
    unfold redoRoom
    rw [hs]
    rfl
  · intro s a hs
    unfold redoRoom
    rw [hs, popLast_append]

theorem claim4_witness :
    emptyRoom.history = [] ∧ undoRoom emptyRoom = (emptyRoom, none) :=
  ⟨rfl, (claim4_undo_redo_noop_and_move emptyRoom).1 rfl⟩

/-! ## Session registry lemmas -/

theorem mapGet_mem (k : String) : ∀ (m : Rooms) (v : Room),
    mapGet k m = some v → (k, v) ∈ m := by
  intro m
  induction m with
  | nil => intro v hv; simp [mapGet] at hv
  | cons p rest ih =>
    intro v hv
    obtain ⟨k2, v2⟩ := p
    rw [mapGet] at hv
    split at hv
    · rename_i heq
      cases hv
      subst heq
      exact List.mem_cons_self _ _
    · exact List.mem_cons_of_mem _ (ih v hv)

theorem mem_mapSet (k : String) (v : Room) : ∀ (m : Rooms) (p : String × Room),
    p ∈ mapSet k v m → p = (k, v) ∨ p ∈ m := by
  intro m
  induction m with
  | nil =>
    intro p hp
    simp [mapSet] at hp
    exact Or.inl hp
  | cons q rest ih =>
    intro p hp
    obtain ⟨k2, v2⟩ := q
    rw [mapSet] at hp
    split at hp
    · rcases List.mem_cons.mp hp with h1 | h2
      · exact Or.inl h1
      · exact Or.inr (List.mem_cons_of_mem _ h2)
    · rcases List.mem_cons.mp hp with h1 | h2
      · exact Or.inr (h1 ▸ List.mem_cons_self _ _)
      · rcases ih p h2 with h3 | h4
        · exact Or.inl h3
        · exact Or.inr (List.mem_cons_of_mem _ h4)

theorem mem_mapDel (k : String) (m : Rooms) (p : String × Room)
    (hp : p ∈ mapDel k m) : p ∈ m :=
  (List.mem_filter.mp hp).1

theorem mapGet_mapSet_self (k : String) (v : Room) : ∀ (m : Rooms),
    mapGet k (mapSet k v m) = some v := by
  intro m
  induction m with
  | nil => simp [mapSet, mapGet]
  | cons q rest ih =>
    obtain ⟨k2, v2⟩ := q
    rw [mapSet]
    split
    · rw [mapGet, if_pos rfl]
    · rename_i hne
      rw [mapGet, if_neg hne]
      exact ih

theorem mapGet_mapDel_self (k : String) : ∀ (m : Rooms),
    mapGet k (mapDel k m) = none := by
  intro m
  induction m with
  | nil => rfl
  | cons q rest ih =>
    obtain ⟨k2, v2⟩ := q
    unfold mapDel at ih ⊢
    rw [List.filter_cons]
    by_cases hk : k2 = k
    · rw [if_neg (by simp [hk])]
      exact ih
    · rw [if_pos (by simp [hk])]
      rw [mapGet, if_neg hk]
      exact ih

theorem hostCount_removeUser (sid : String) : ∀ (us : List User) (u : User),
    us.find? (fun x => x.id = sid) = some u →
    hostCount (removeUser sid us) + (if u.isHost then 1 else 0) = hostCount us := by
  intro us
  induction us with
  | nil => intro u hu; simp at hu
  | cons v rest ih =>
    intro u hu
    rw [List.find?_cons] at hu
    by_cases hv : v.id = sid
    · simp only [hv, decide_True] at hu
      cases hu
      rw [removeUser, if_pos hv]
      simp only [hostCount, List.countP_cons]
    · simp only [hv, decide_False] at hu
      rw [removeUser, if_neg hv]
      have hrec := ih u hu
      simp only [hostCount, List.countP_cons] at hrec ⊢
      omega

theorem hostCount_setFirstHost (us : List User) (hne : us ≠ [])
    (h0 : hostCount us = 0) : hostCount (setFirstHost us) = 1 := by
  cases us with
  | nil => exact absurd rfl hne
  | cons v rest =>
    rw [setFirstHost]
    simp only [hostCount, List.countP_cons] at h0 ⊢
    have h1 : List.countP (fun x => x.isHost) rest = 0 := by omega
    simp [h1]

/-- The computational content of handleLeave once the room and the leaving
member are found. -/
theorem handleLeave_found (roomId sid : String) (m : Rooms) (room : Room) (u : User)
    (hg : mapGet roomId m = some room)
    (hf : room.users.find? (fun x => x.id = sid) = some u) :
    (handleLeave roomId sid m).1 =
      if (migrateUsers u (removeUser sid room.users)).isEmpty
      then mapDel roomId m
      else mapSet roomId
        { room with users := migrateUsers u (removeUser sid room.users) } m := by
  unfold handleLeave
  rw [hg]
  dsimp only
  rw [hf]
  dsimp only
  split <;> rfl

theorem handleLeave_not_found_get (roomId sid : String) (m : Rooms) :
    (∀ room, mapGet roomId m = some room →
      room.users.find? (fun x => x.id = sid) = none) →
    mapGet roomId m = none ∨ (handleLeave roomId sid m) = (m, []) := by
  intro hno
  cases hg : mapGet roomId m with
  | none => exact Or.inl rfl
  | some room =>
    refine Or.inr ?_
    unfold handleLeave
    rw [hg]
    dsimp only
    rw [hno room hg]

theorem handleLeave_inv (roomId sid : String) (m : Rooms) (hInv : InvRooms m) :
    InvRooms (handleLeave roomId sid m).1 := by
  cases hg : mapGet roomId m with
  | none =>
    have hid : (handleLeave roomId sid m).1 = m := by
      unfold handleLeave
      rw [hg]
    rw [hid]
    exact hInv
  | some room =>
    cases hf : room.users.find? (fun x => x.id = sid) with
    | none =>
      have hid : (handleLeave roomId sid m).1 = m := by
        unfold handleLeave
        rw [hg]
        dsimp only
        rw [hf]
      rw [hid]
      exact hInv
    | some u =>
      rw [handleLeave_found roomId sid m room u hg hf]
      have hmem : (roomId, room) ∈ m := mapGet_mem roomId m room hg
      have hcnt : hostCount room.users = 1 := (hInv _ hmem).2
      have hrem := hostCount_removeUser sid room.users u hf
      split
      · intro p hp
        exact hInv p (mem_mapDel roomId m p hp)
      · rename_i hne3
        simp only [List.isEmpty_iff] at hne3
        intro p hp
        rcases mem_mapSet roomId _ m p hp with hpe | hpm
        · subst hpe
          have hne4 : migrateUsers u (removeUser sid room.users) ≠ [] := hne3
          refine ⟨hne4, ?_⟩
          show hostCount (migrateUsers u (removeUser sid room.users)) = 1
          unfold migrateUsers at hne4 ⊢
          by_cases hcond : u.isHost = true ∧ removeUser sid room.users ≠ []
          · rw [if_pos hcond]
            have h20 : hostCount (removeUser sid room.users) = 0 := by
              rw [if_pos hcond.1] at hrem
              omega
            exact hostCount_setFirstHost _ hcond.2 h20
          · rw [if_neg hcond] at hne4 ⊢
            by_cases hu : u.isHost = true
            · have h2e : removeUser sid room.users = [] := by
                by_contra h2ne
                exact hcond ⟨hu, h2ne⟩
              exact absurd h2e hne4
            · rw [if_neg hu] at hrem
              omega
        · exact hInv p hpm

theorem kickUser_fst (roomId rq tg : String) (m : Rooms) :
    (kickUser roomId rq tg m).1 = m ∨
    (kickUser roomId rq tg m).1 = (handleLeave roomId tg m).1 := by
  unfold kickUser
  cases hg : mapGet roomId m with
  | none => exact Or.inl rfl
  | some room =>
    dsimp only
    cases hf : room.users.find? (fun x => x.id = rq) with
    | none => exact Or.inl rfl
    | some req =>
      dsimp only
      by_cases hh : req.isHost = true
      · rw [if_pos hh]
        exact Or.inr rfl
      · rw [if_neg hh]
        exact Or.inl rfl

theorem foldl_handleLeave_inv (sid : String) : ∀ (ks : List String) (m : Rooms),
    InvRooms m →
    InvRooms (ks.foldl (fun acc rid => (handleLeave rid sid acc).1) m) := by
  intro ks
  induction ks with
  | nil => intro m h; exact h
  | cons k rest ih =>
    intro m h
    rw [List.foldl_cons]
    exact ih _ (handleLeave_inv k sid m h)

/-- C5: every room in the registry has exactly one member holding host
authority (and a non-empty member list, rooms being destroyed when emptied);
the invariant is preserved by createRoom, joinRoom, leaveRoom (handleLeave),
kickUser and disconnect; when the host leaves and members remain, authority
transfers to the member now first in the remaining join-order list; and a
room whose member list becomes empty is removed from the registry together
with its history and redo stack. -/
theorem claim5_single_host (m : Rooms) (hInv : InvRooms m) :
    (∀ roomId uid uname ucolor, InvRooms (createRoom roomId uid uname ucolor m).1) ∧
    (∀ roomId uid uname ucolor, InvRooms (joinRoom roomId uid uname ucolor m).1) ∧
    (∀ roomId sid, InvRooms (handleLeave roomId sid m).1) ∧
    (∀ roomId rq tg, InvRooms (kickUser roomId rq tg m).1) ∧
    (∀ sid, InvRooms (disconnectAll sid m)) ∧
    (∀ roomId sid room u v vs,
      mapGet roomId m = some room →
      room.users.find? (fun x => x.id = sid) = some u →
      u.isHost = true →
      removeUser sid room.users = v :: vs →
      mapGet roomId (handleLeave roomId sid m).1 =
        some { room with users := { v with isHost := true } :: vs }) ∧
    (∀ roomId sid room u,
      mapGet roomId m = some room →
      room.users.find? (fun x => x.id = sid) = some u →
      removeUser sid room.users = [] →
      mapGet roomId (handleLeave roomId sid m).1 = none) := by
  refine ⟨?_, ?_, ?_, ?_, ?_, ?_, ?_⟩
  · intro roomId uid uname ucolor p hp
    rcases mem_mapSet roomId _ m p hp with hpe | hpm
    · subst hpe
      refine ⟨by simp, ?_⟩
      show hostCount [⟨uid, uname, true, ucolor⟩] = 1
      simp [hostCount]
    · exact hInv p hpm
  · intro roomId uid uname ucolor
    unfold joinRoom
    cases hg : mapGet roomId m with
    | none => exact hInv
    | some room =>
      intro p hp
      rcases mem_mapSet roomId _ m p hp with hpe | hpm
      · subst hpe
        refine ⟨by simp, ?_⟩
        show hostCount (room.users ++ [⟨uid, uname, false, ucolor⟩]) = 1
        have h1 : hostCount room.users = 1 := (hInv _ (mapGet_mem roomId m room hg)).2
        unfold hostCount at h1 ⊢
        rw [List.countP_append]
        simp [h1]
      · exact hInv p hpm
  · intro roomId sid
    exact handleLeave_inv roomId sid m hInv
  · intro roomId rq tg
    rcases kickUser_fst roomId rq tg m with hk | hk
    · rw [hk]; exact hInv
    · rw [hk]; exact handleLeave_inv roomId tg m hInv
  · intro sid
    exact foldl_handleLeave_inv sid _ m hInv
  · intro roomId sid room u v vs hg hf hu hrm
    rw [handleLeave_found roomId sid m room u hg hf]
    have hmig : migrateUsers u (removeUser sid room.users) =
        { v with isHost := true } :: vs := by
      unfold migrateUsers
      rw [hrm, if_pos ⟨hu, by simp⟩]
      rfl
    rw [hmig, if_neg (by simp)]
    exact mapGet_mapSet_self roomId _ m
  · intro roomId sid room u hg hf hrm
    rw [handleLeave_found roomId sid m room u hg hf]
    have hmig : migrateUsers u (removeUser sid room.users) = [] := by
      unfold migrateUsers
      rw [hrm, if_neg (by simp)]
    rw [hmig]
    rw [if_pos (show ([] : List User).isEmpty = true from rfl)]
    exact mapGet_mapDel_self roomId m

theorem claim5_witness :
    InvRooms ([] : Rooms) ∧
    InvRooms (createRoom "R" "u1" "alice" "red" ([] : Rooms)).1 :=
  ⟨by simp [InvRooms],
    (claim5_single_host ([] : Rooms) (by simp [InvRooms])).1 "R" "u1" "alice" "red"⟩

/-- C6: kickUser invoked by a requester that is not a member of the room or
does not hold host authority leaves the entire registry (membership, history,
redo stack) unchanged and emits no event at all; no error is surfaced. -/
theorem claim6_kick_unauthorized (roomId requesterId targetId : String) (m : Rooms)
    (room : Room) (hg : mapGet roomId m = some room)
    (hnh : ∀ u ∈ room.users, u.id = requesterId → u.isHost = false) :
    kickUser roomId requesterId targetId m = (m, []) := by
  unfold kickUser
  rw [hg]
  dsimp only
  cases hf : room.users.find? (fun x => x.id = requesterId) with
  | none => rfl
  | some req =>
    dsimp only
    have hreqmem : req ∈ room.users := List.mem_of_find?_eq_some hf
    have hd : decide (req.id = requesterId) = true :=
      @List.find?_some User (fun x => decide (x.id = requesterId)) req room.users hf
    have hreqid : req.id = requesterId := of_decide_eq_true hd
    have hfalse : req.isHost = false := hnh req hreqmem hreqid
    rw [if_neg (by simp [hfalse])]

theorem claim6_witness :
    mapGet "R" ([("R", ⟨[⟨"h", "H", true, "c1"⟩, ⟨"b", "B", false, "c2"⟩], [], []⟩)] : Rooms) =
      some ⟨[⟨"h", "H", true, "c1"⟩, ⟨"b", "B", false, "c2"⟩], [], []⟩ ∧
    kickUser "R" "b" "h"
        ([("R", ⟨[⟨"h", "H", true, "c1"⟩, ⟨"b", "B", false, "c2"⟩], [], []⟩)] : Rooms) =
      (([("R", ⟨[⟨"h", "H", true, "c1"⟩, ⟨"b", "B", false, "c2"⟩], [], []⟩)] : Rooms), []) :=
  ⟨rfl,
    claim6_kick_unauthorized "R" "b" "h" _ _ rfl (by decide)⟩

/-! ## Flood-fill repaints only exact-match pixels connected to the seed -/

theorem posIdx_inj (w h : Nat) (p q : Int × Int) (hp : inB w h p) (hq : inB w h q)
    (he : posIdx w p = posIdx w q) : p = q := by
  obtain ⟨p1, p2⟩ := p
  obtain ⟨q1, q2⟩ := q
  obtain ⟨hp1, hp2, hp3, hp4⟩ := hp
  obtain ⟨hq1, hq2, hq3, hq4⟩ := hq
  have hw0 : (0 : Int) < (w : Int) := lt_of_le_of_lt hp1 hp2
  have hInt : p2 * (w : Int) + p1 = q2 * (w : Int) + q1 := by
    have h1 : ((posIdx w (p1, p2) : Nat) : Int) = p2 * (w : Int) + p1 :=
      Int.toNat_of_nonneg (seedIdx_nonneg w p1 p2 hp1 hp3)
    have h2 : ((posIdx w (q1, q2) : Nat) : Int) = q2 * (w : Int) + q1 :=
      Int.toNat_of_nonneg (seedIdx_nonneg w q1 q2 hq1 hq3)
    rw [← h1, ← h2, he]
  have hmod : ∀ (a b : Int), 0 ≤ a → a < (w : Int) →
      (b * (w : Int) + a) % (w : Int) = a := by
    intro a b ha hab
    have harr : b * (w : Int) + a = a + (w : Int) * b := by ring
    rw [harr, Int.add_mul_emod_self_left]
    exact Int.emod_eq_of_lt ha hab
  have hx : p1 = q1 := by
    have m1 := hmod p1 p2 hp1 hp2
    have m2 := hmod q1 q2 hq1 hq2
    rw [hInt] at m1
    exact m1.symm.trans m2
  subst hx
  have hy : p2 = q2 := by
    have hmul : p2 * (w : Int) = q2 * (w : Int) := by linarith
    exact mul_right_cancel₀ (ne_of_gt hw0) hmul
  rw [hy]

theorem fillGo_sound (w h : Nat) (d0 : List Pixel) (startC : Option Pixel)
    (fillPx : Pixel) (seed : Int × Int) (hw : d0.length = w * h)
    (hne : ¬ some fillPx = startC) :
    ∀ (fuel : Nat) (d : List Pixel) (st : List (Int × Int)) (d2 : List Pixel),
      d.length = d0.length →
      (∀ p : Int × Int, inB w h p → readAt w d p ≠ readAt w d0 p →
        readAt w d p = some fillPx ∧ readAt w d0 p = startC ∧
        ConnFill w h d0 startC seed p) →
      (∀ q ∈ st, q = seed ∨ ∃ p, ConnFill w h d0 startC seed p ∧ Adj p q) →
      fillGo w h startC fillPx fuel d st = some d2 →
      ∀ p : Int × Int, inB w h p → readAt w d2 p ≠ readAt w d0 p →
        readAt w d0 p = startC ∧ ConnFill w h d0 startC seed p := by
  intro fuel
  induction fuel with
  | zero =>
    intro d st d2 hlen h1 h2 hgo
    cases st with
    | nil =>
      cases hgo
      intro p hp hch
      exact ⟨(h1 p hp hch).2.1, (h1 p hp hch).2.2⟩
    | cons q0 rest => simp [fillGo] at hgo
  | succ fuel ih =>
    intro d st d2 hlen h1 h2 hgo
    cases st with
    | nil =>
      cases hgo
      intro p hp hch
      exact ⟨(h1 p hp hch).2.1, (h1 p hp hch).2.2⟩
    | cons q0 rest =>
      obtain ⟨cx, cy⟩ := q0
      rw [fillGo] at hgo
      split at hgo
      · exact ih d rest d2 hlen h1 (fun q hq => h2 q (List.mem_cons_of_mem _ hq)) hgo
      · rename_i hoob
        push_neg at hoob
        obtain ⟨hx0, hxw, hy0, hyh⟩ := hoob
        have hin : inB w h (cx, cy) := ⟨hx0, hxw, hy0, hyh⟩
        split at hgo
        · rename_i hmt
          have hposlt : (cy * (w : Int) + cx).toNat < d.length := by
            rw [hlen, hw]
            exact seedIdx_lt w h cx cy hx0 hxw hy0 hyh
          have hrd : readAt w d (cx, cy) = startC := hmt
          have hA : readAt w d0 (cx, cy) = startC := by
            by_cases heq : readAt w d (cx, cy) = readAt w d0 (cx, cy)
            · rw [← heq]
              exact hrd
            · exfalso
              have hfp := (h1 _ hin heq).1
              rw [hfp] at hrd
              exact hne hrd
          have hB : ConnFill w h d0 startC seed (cx, cy) := by
            rcases h2 _ (List.mem_cons_self _ _) with hq | ⟨p2, hc2, ha2⟩
            · rw [hq] at hin hA ⊢
              exact ConnFill.base hin hA
            · exact ConnFill.step p2 _ hc2 ha2 hin hA
          refine ih _ _ d2 (by simpa using hlen) ?_ ?_ hgo
          · intro p hp hch
            by_cases hpq : p = (cx, cy)
            · subst hpq
              refine ⟨?_, hA, hB⟩
              exact List.getElem?_set_eq_of_lt fillPx hposlt
            · have hnidx : (cy * (w : Int) + cx).toNat ≠ posIdx w p := by
                intro he
                exact hpq (posIdx_inj w h p (cx, cy) hp hin he.symm)
              have hrw : readAt w (d.set ((cy * (w : Int) + cx).toNat) fillPx) p =
                  readAt w d p := List.getElem?_set_ne hnidx
              rw [hrw] at hch
              obtain ⟨ha1, ha2', ha3⟩ := h1 p hp hch
              refine ⟨?_, ha2', ha3⟩
              rw [hrw]
              exact ha1
          · intro q hq
            rcases List.mem_cons.mp hq with hq1 | hq'
            · exact Or.inr ⟨(cx, cy), hB, Or.inr (Or.inr (Or.inr hq1))⟩
            rcases List.mem_cons.mp hq' with hq2 | hq''
            · exact Or.inr ⟨(cx, cy), hB, Or.inr (Or.inr (Or.inl hq2))⟩
            rcases List.mem_cons.mp hq'' with hq3 | hq3'
            · exact Or.inr ⟨(cx, cy), hB, Or.inr (Or.inl hq3)⟩
            rcases List.mem_cons.mp hq3' with hq4 | hrest
            · exact Or.inr ⟨(cx, cy), hB, Or.inl hq4⟩
            · exact h2 q (List.mem_cons_of_mem _ hrest)
        · exact ih d rest d2 hlen h1 (fun q hq => h2 q (List.mem_cons_of_mem _ hq)) hgo

/-- C7: flood fill repaints only pixels that are 4-connected to the seed
through pixels whose color is exactly equal, in all channels, to the seed
pixel's original color (every changed in-bounds pixel originally carried the
seed color and is connected to the seed), and it is a guaranteed no-op
whenever the seed pixel's color already equals the target fill color in all
channels. -/
theorem claim7_fill_exact_sound (b : Buffer) (x y : ℚ) (fill : RGB) (hb : b.wf) :
    (∀ p : Int × Int, inB b.w b.h p →
      readAt b.w (floodFill b x y fill).data p ≠ readAt b.w b.data p →
      readAt b.w b.data p = seedColor b x y ∧
      ConnFill b.w b.h b.data (seedColor b x y) (⌊x⌋, ⌊y⌋) p) ∧
    (seedColor b x y = some ⟨fill.r, fill.g, fill.b, 255⟩ →
      floodFill b x y fill = b) := by
  constructor
  · intro p hp hch
    unfold floodFill at hch
    cases hrun : floodFillRun b.w b.h b.data ⌊x⌋ ⌊y⌋ fill with
    | none =>
      rw [hrun] at hch
      exact absurd rfl hch
    | some d2 =>
      rw [hrun] at hch
      unfold floodFillRun at hrun
      split at hrun
      · cases hrun
        exact absurd rfl hch
      · rename_i hne
        refine fillGo_sound b.w b.h b.data _ _ (⌊x⌋, ⌊y⌋) hb hne
          _ b.data _ d2 rfl ?_ ?_ hrun p hp hch
        · intro p2 hp2 hch2
          exact absurd rfl hch2
        · intro q hq
          left
          simpa using hq
  · intro hseed
    have hcond : some (⟨fill.r, fill.g, fill.b, 255⟩ : Pixel) =
        flatRead b.data (⌊y⌋ * (b.w : Int) + ⌊x⌋) := hseed.symm
    unfold floodFill
    have hrun : floodFillRun b.w b.h b.data ⌊x⌋ ⌊y⌋ fill = some b.data := by
      unfold floodFillRun
      rw [if_pos hcond]
    rw [hrun]

theorem claim7_witness :
    (⟨1, 1, [⟨5, 5, 5, 255⟩]⟩ : Buffer).wf ∧
    floodFill ⟨1, 1, [⟨5, 5, 5, 255⟩]⟩ 0 0 ⟨5, 5, 5⟩ = ⟨1, 1, [⟨5, 5, 5, 255⟩]⟩ :=
  ⟨rfl,
    (claim7_fill_exact_sound ⟨1, 1, [⟨5, 5, 5, 255⟩]⟩ 0 0 ⟨5, 5, 5⟩ rfl).2 (by decide)⟩

/-! ## Shape rendering -/

/-- C9 (amended): drawShape emits, for rectangle, the stroked axis-aligned
box whose corners are the start and end points; for circle, a stroked circle
centered at the start point whose squared radius is the squared Euclidean
distance from start to end; for triangle, the stroked closed path with apex
at the horizontal midpoint at the y coordinate of the start point and base
spanning the segment at the y coordinate of the end point — so the apex lies
on the top edge of the bounding box exactly when the end point is not above
the start point (when the end point is above the start, the triangle is
inverted); and the fill flag has no rendering effect. -/
theorem claim9_shape_rendering (d : DrawShape) :
    (d.type = .rect →
      drawShape d = .strokeRect d.startPoint.x d.startPoint.y
        (d.endPoint.x - d.startPoint.x) (d.endPoint.y - d.startPoint.y) ∧
      d.startPoint.x + (d.endPoint.x - d.startPoint.x) = d.endPoint.x ∧
      d.startPoint.y + (d.endPoint.y - d.startPoint.y) = d.endPoint.y) ∧
    (d.type = .circle →
      drawShape d = .strokeCircle d.startPoint.x d.startPoint.y
        (distSq d.startPoint d.endPoint)) ∧
    (d.type = .triangle →
      drawShape d = .strokeTriangle ((d.startPoint.x + d.endPoint.x) / 2)
        d.startPoint.y d.startPoint.x d.endPoint.y d.endPoint.x d.endPoint.y ∧
      (d.startPoint.y ≤ d.endPoint.y →
        triApexY (drawShape d) = min d.startPoint.y d.endPoint.y)) ∧
    (∀ v : Bool, drawShape { d with isFilled := v } = drawShape d) := by
  obtain ⟨ty, sp, ep, co, wi, fl⟩ := d
  refine ⟨?_, ?_, ?_, ?_⟩
  · intro hty
    subst hty
    refine ⟨rfl, by ring, by ring⟩
  · intro hty
    subst hty
    simp only [drawShape, distSq, RenderCmd.strokeCircle.injEq]
    refine ⟨trivial, trivial, by ring⟩
  · intro hty
    subst hty
    constructor
    · simp only [drawShape, RenderCmd.strokeTriangle.injEq]
      refine ⟨by ring, trivial, trivial, by ring, by ring, by ring⟩
    · intro hle
      simp only [drawShape, triApexY]
      exact (min_eq_left hle).symm
  · intro v
    rfl

/-- C9 as stated is false on the code: for the triangle with start (0, 10)
and end (10, 0) — the end point above the start point — the apex emitted by
drawShape has y coordinate 10, which is not the y coordinate of the top edge
of the bounding box of start and end (0); the apex lies on the bottom edge. -/
theorem claim9_counterexample :
    triApexY (drawShape ⟨.triangle, ⟨0, 10⟩, ⟨10, 0⟩, ⟨0, 0, 0⟩, 1, false⟩) ≠
      min (10 : ℚ) 0 := by
  decide

theorem claim9_witness :
    (⟨.rect, ⟨1, 2⟩, ⟨3, 5⟩, ⟨0, 0, 0⟩, 2, false⟩ : DrawShape).type = ShapeType.rect ∧
    drawShape (⟨.rect, ⟨1, 2⟩, ⟨3, 5⟩, ⟨0, 0, 0⟩, 2, false⟩ : DrawShape) =
      RenderCmd.strokeRect 1 2 (3 - 1) (5 - 2) :=
  ⟨rfl,
    ((claim9_shape_rendering ⟨.rect, ⟨1, 2⟩, ⟨3, 5⟩, ⟨0, 0, 0⟩, 2, false⟩).1 rfl).1⟩
